import Mathlib

/-!
Verification of the diskface disk-usage analyzer.

This file gives a shallow embedding of the core functions of the repository
(`parse_selection`, `path_matches_pattern`, `should_exclude`,
`analyze_disk_usage` and `safe_remove_items` from `src/diskface.py`) and
proves or refutes the specified properties about them.

Strings are modelled as `List Char`; the wrappers taking `String` convert via
`String.data`.  Machine integers of Python are unbounded, so `Int`/`Nat` model
them exactly.  Recursion over file-system trees uses an explicit fuel
parameter: any fuel at least the depth of the tree gives the complete walk,
and all universally quantified theorems hold for every fuel value.
-/

/-! ## Character and string helpers (Python semantics) -/

/-- The whitespace characters recognised by Python `str.split()` (ASCII part). -/
def isPySpace (c : Char) : Bool :=
  c == ' ' || c == '\t' || c == '\n' || c == '\r' || c == '\x0b' || c == '\x0c'

/-- Python `str.lower` on a single character (ASCII range, as used by the code). -/
def pyLower (c : Char) : Char :=
  if 65 ≤ c.toNat ∧ c.toNat ≤ 90 then Char.ofNat (c.toNat + 32) else c

/-- Python `str.lower` on a whole string. -/
def strLower (l : List Char) : List Char := l.map pyLower

/-- The character substitution performed by `selection.replace(',', ' ')`. -/
def commaToSpace (c : Char) : Char := if c = ',' then ' ' else c

/-- Worker for Python `str.split()`: splits on runs of whitespace, dropping
empty pieces.  `acc` holds the reversed current token. -/
def splitWsAux : List Char → List Char → List (List Char)
  | [], acc => if acc.isEmpty then [] else [acc.reverse]
  | c :: cs, acc =>
    if isPySpace c then
      if acc.isEmpty then splitWsAux cs [] else acc.reverse :: splitWsAux cs []
    else splitWsAux cs (c :: acc)

/-- Python `str.split()` with no separator argument. -/
def pySplit (l : List Char) : List (List Char) := splitWsAux l []

/-- The token list of `selection.replace(',', ' ').split()`. -/
def tokensOf (l : List Char) : List (List Char) := pySplit (l.map commaToSpace)

/-- ASCII decimal digit test, by code point. -/
def isDigitChar (c : Char) : Bool := 48 ≤ c.toNat && c.toNat ≤ 57

/-- Digit-sequence acceptor of Python `int()`: digits with single underscores
allowed strictly between digits.  `prevDigit` records whether the previous
character was a digit (so an underscore is currently allowed). -/
def pyDigitsGo : List Char → Bool → Nat → Option Nat
  | [], prevDigit, acc => if prevDigit then some acc else none
  | c :: cs, prevDigit, acc =>
    if isDigitChar c then pyDigitsGo cs true (acc * 10 + (c.toNat - 48))
    else if c == '_' && prevDigit then pyDigitsGo cs false acc
    else none

/-- Python `int(s)` on a whitespace-free token: optional sign, then digits. -/
def pyInt (l : List Char) : Option Int :=
  match l with
  | [] => none
  | c :: cs =>
    if c = '+' then (pyDigitsGo cs false 0).map (fun n => (n : Int))
    else if c = '-' then (pyDigitsGo cs false 0).map (fun n => -(n : Int))
    else (pyDigitsGo (c :: cs) false 0).map (fun n => (n : Int))

/-- Python `part.split('-', 1)` restricted to the case where `'-' in part`:
returns the pieces before and after the first dash, `none` if there is none. -/
def splitFirstDash : List Char → Option (List Char × List Char)
  | [] => none
  | c :: cs =>
    if c = '-' then some ([], cs)
    else (splitFirstDash cs).map (fun pr => (c :: pr.1, pr.2))

/-- Python `range(a, b)` as a list of integers. -/
def intRange (a b : Int) : List Int :=
  (List.range (b - a).toNat).map (fun i : Nat => a + (i : Int))

/-! ## SelectionParser: `parse_selection` from src/diskface.py lines 152-177 -/

/-- One loop iteration of `parse_selection`: the indices contributed by a
single token, `none` when the token makes the whole input invalid (parse
error, out-of-range value, or inverted range). -/
def parseToken (maxItems : Int) (part : List Char) : Option (List Int) :=
  match splitFirstDash part with
  | some pr =>
    match pyInt pr.1, pyInt pr.2 with
    | some s, some e =>
      if 1 ≤ s ∧ s ≤ maxItems ∧ 1 ≤ e ∧ e ≤ maxItems ∧ s ≤ e then
        some (intRange s (e + 1))
      else none
    | _, _ => none
  | none =>
    match pyInt part with
    | some n => if 1 ≤ n ∧ n ≤ maxItems then some [n] else none
    | none => none

/-- The token loop of `parse_selection`: concatenates the contributions of all
tokens, failing as a whole if any token fails. -/
def parseAll (maxItems : Int) : List (List Char) → Option (List Int)
  | [] => some []
  | p :: ps =>
    match parseToken maxItems p, parseAll maxItems ps with
    | some v, some rest => some (v ++ rest)
    | _, _ => none

/-- The characters of the literal "all". -/
def pyAllChars : List Char := ['a', 'l', 'l']

/-- `parse_selection` on character lists.  An empty result plays the role of
the ok=false rejection signal, exactly as the callers of the Python function
interpret it. -/
def parseSelectionL (sel : List Char) (maxItems : Int) : List Int :=
  if strLower sel = pyAllChars then intRange 1 (maxItems + 1)
  else
    match parseAll maxItems (tokensOf sel) with
    | some idxs => List.insertionSort (fun a b : Int => a ≤ b) idxs.dedup
    | none => []

/-- `parse_selection(selection, max_items)` from src/diskface.py. -/
def parse_selection (sel : String) (maxItems : Int) : List Int :=
  parseSelectionL sel.data maxItems

/-! ## Glob matching: fnmatch.fnmatch on already-lowercased strings

`fnmatch.fnmatch` on POSIX performs a full (anchored) match of the whole
string against the pattern, where `*` matches any character sequence
(including '/'), `?` matches one character, and `[...]` is a character class
with optional leading `!` negation, a literal `]` allowed as first member,
code-point ranges `a-b`, and an unterminated `[` taken literally. -/

/-- One member of a character class: a single character or a range. -/
inductive ClItem where
  | one (c : Char)
  | rng (a b : Char)

/-- A compiled glob token. -/
inductive GlobTok where
  | lit (c : Char)
  | anyOne
  | anyStar
  | cls (neg : Bool) (items : List ClItem)

/-- Parse the members of a character class body. A trailing dash is literal. -/
def parseItems : List Char → List ClItem
  | [] => []
  | a :: '-' :: b :: rest => .rng a b :: parseItems rest
  | a :: rest => .one a :: parseItems rest

/-- Scan for the closing bracket of a character class, returning the class
body and the remainder of the pattern. -/
def findClose : List Char → Option (List Char × List Char)
  | [] => none
  | c :: cs =>
    if c = ']' then some ([], cs)
    else (findClose cs).map (fun pr => (c :: pr.1, pr.2))

/-- Split a character class (the text after the opening bracket) into its
negation flag, body and remainder; `none` when the class is unterminated. -/
def classSplit (p : List Char) : Option (Bool × List Char × List Char) :=
  match p with
  | '!' :: t =>
    (match t with
     | ']' :: t2 => (findClose t2).map (fun pr => (true, ']' :: pr.1, pr.2))
     | _ => (findClose t).map (fun pr => (true, pr.1, pr.2)))
  | _ =>
    (match p with
     | ']' :: t2 => (findClose t2).map (fun pr => (false, ']' :: pr.1, pr.2))
     | _ => (findClose p).map (fun pr => (false, pr.1, pr.2)))

/-- Compile a glob pattern into tokens.  The fuel is at least the pattern
length plus one, and every step consumes at least one character, so the fuel
never runs out when called through `compileGlob`. -/
def compileGlobAux : Nat → List Char → List GlobTok
  | 0, _ => []
  | _ + 1, [] => []
  | n + 1, c :: p =>
    if c = '*' then .anyStar :: compileGlobAux n p
    else if c = '?' then .anyOne :: compileGlobAux n p
    else if c = '[' then
      match classSplit p with
      | none => .lit '[' :: compileGlobAux n p
      | some tr => .cls tr.1 (parseItems tr.2.1) :: compileGlobAux n tr.2.2
    else .lit c :: compileGlobAux n p

/-- Compile a glob pattern into tokens. -/
def compileGlob (p : List Char) : List GlobTok := compileGlobAux (p.length + 1) p

/-- Does a character match one class member? Ranges compare code points. -/
def clItemMatch (c : Char) : ClItem → Bool
  | .one a => c == a
  | .rng a b => a.toNat ≤ c.toNat && c.toNat ≤ b.toNat

/-- Does a character match a (possibly negated) character class? -/
def classMatch (neg : Bool) (items : List ClItem) (c : Char) : Bool :=
  (items.any (clItemMatch c)) != neg

/-- Anchored matching of compiled glob tokens against a string.  Every
recursive call shrinks `toks.length + s.length`, so fuel
`toks.length + s.length + 1` always suffices. -/
def tokMatchF : Nat → List GlobTok → List Char → Bool
  | 0, _, _ => false
  | _ + 1, [], s => s.isEmpty
  | n + 1, .anyStar :: ts, s =>
    tokMatchF n ts s ||
      (match s with
       | [] => false
       | _ :: s2 => tokMatchF n (.anyStar :: ts) s2)
  | n + 1, .anyOne :: ts, s =>
    (match s with
     | [] => false
     | _ :: s2 => tokMatchF n ts s2)
  | n + 1, .lit c :: ts, s =>
    (match s with
     | [] => false
     | d :: s2 => d == c && tokMatchF n ts s2)
  | n + 1, .cls neg items :: ts, s =>
    (match s with
     | [] => false
     | d :: s2 => classMatch neg items d && tokMatchF n ts s2)

/-- `fnmatch.fnmatch(s, p)` (both arguments already lowercased by callers). -/
def fnmatchL (s p : List Char) : Bool :=
  tokMatchF (s.length + (compileGlob p).length + 1) (compileGlob p) s

/-! ## PurePosixPath normalization and `path_matches_pattern`

`str(PurePosixPath(s))` collapses repeated slashes (keeping a double leading
slash), drops single-dot components and the trailing slash, and renders an
empty relative path as a single dot. -/

/-- Python `s.split('/')` on character lists: always non-empty, keeps empty
pieces. -/
def splitSlash : List Char → List (List Char)
  | [] => [[]]
  | c :: cs =>
    if c = '/' then [] :: splitSlash cs
    else (c :: (splitSlash cs).headD []) :: (splitSlash cs).tail

/-- Python `'/'.join(parts)`. -/
def joinSlash : List (List Char) → List Char
  | [] => []
  | [x] => x
  | x :: y :: xs => x ++ '/' :: joinSlash (y :: xs)

/-- The number of leading slashes of a raw path string. -/
def leadingSlashes : List Char → Nat
  | [] => 0
  | c :: cs => if c = '/' then leadingSlashes cs + 1 else 0

/-- The root part of a PurePosixPath: empty, '/', or the special '//'. -/
def posixRoot (l : List Char) : List Char :=
  if leadingSlashes l = 0 then []
  else if leadingSlashes l = 2 then ['/', '/']
  else ['/']

/-- The non-root components of a PurePosixPath: the slash-split pieces that
are neither empty nor a single dot. -/
def posixComponents (l : List Char) : List (List Char) :=
  (splitSlash l).filter (fun seg => !seg.isEmpty && seg != ['.'])

/-- `str(PurePosixPath(l))`. -/
def purePosixStr (l : List Char) : List Char :=
  if (posixRoot l).isEmpty then
    (if (posixComponents l).isEmpty then ['.'] else joinSlash (posixComponents l))
  else posixRoot l ++ joinSlash (posixComponents l)

/-- `PurePosixPath(l).is_absolute()`: the raw string starts with a slash. -/
def isAbsolutePath (l : List Char) : Bool :=
  match l with
  | [] => false
  | c :: _ => c == '/'

/-- `path_matches_pattern(path, pattern)` from src/diskface.py lines 122-139:
absolute patterns glob-match the whole normalized path; patterns with a
literal `**` segment suffix-match; otherwise every window of the normalized
path segments with the pattern segment count is glob-matched (all matching
case-insensitively). -/
def path_matches_pattern (path pattern : List Char) : Bool :=
  if isAbsolutePath pattern then
    fnmatchL (strLower (purePosixStr path)) (strLower (purePosixStr pattern))
  else
    let parts := splitSlash pattern
    if parts.contains ['*', '*'] then
      fnmatchL (strLower (purePosixStr path)) (strLower ('*' :: parts.getLastD []))
    else
      let pathParts := splitSlash (purePosixStr path)
      (List.range (pathParts.length + 1 - parts.length)).any
        (fun i =>
          fnmatchL (strLower (joinSlash ((pathParts.drop i).take parts.length)))
            (strLower pattern))

/-- `should_exclude(path, exclusions)`: some pattern matches. -/
def should_exclude (path : List Char) (exclusions : List (List Char)) : Bool :=
  exclusions.any (fun pat => path_matches_pattern path pat)

/-- The relative-pattern window test exactly as the claim words it: both the
pattern and the path are split on '/' directly, the path without any
normalization.  Kept separate from `path_matches_pattern` (the code), to be
compared against it. -/
def specWindowMatch (path pattern : List Char) : Bool :=
  let parts := splitSlash pattern
  let pathParts := splitSlash path
  (List.range (pathParts.length + 1 - parts.length)).any
    (fun i =>
      fnmatchL (strLower (joinSlash ((pathParts.drop i).take parts.length)))
        (strLower pattern))

/-! ## ScanEngine: `analyze_disk_usage` from src/diskface.py lines 436-515

The file system is a tree of named nodes; file nodes carry their size and an
`os.path.islink` flag.  `os.walk(root, topdown=True)` with the in-place
pruning of `dirnames` becomes a recursive walk that filters the child
directories before recursing.  Stat errors are not modelled (a file always
has its recorded size). -/

inductive FSNode where
  | file (size : Nat) (isLink : Bool)
  | dir (children : List (List Char × FSNode))

/-- The scan settings read by `analyze_disk_usage` (threshold already in
bytes). -/
structure ScanCfg where
  excl : List (List Char)
  minBytes : Nat
  scanDirs : Bool
  scanFiles : Bool
  ignoreDot : Bool

/-- A path extended so that appending a name yields `os.path.join`:
a trailing slash is added unless one is present or the path is empty. -/
def childSlash (p : List Char) : List Char :=
  if p.isEmpty then p
  else if p.getLast? = some '/' then p else p ++ ['/']

/-- `os.path.join(p, name)` for a relative name. -/
def pathJoin (p name : List Char) : List Char := childSlash p ++ name

/-- Does any component of `Path(p).parts` start with a dot? -/
def hasDotPart (p : List Char) : Bool :=
  (posixComponents p).any (fun seg => seg.head? == some '.')

/-- The `filenames` of a directory as `os.walk` reports them:
(name, size, islink). -/
def filesOf (children : List (List Char × FSNode)) : List (List Char × Nat × Bool) :=
  children.filterMap (fun e =>
    match e.2 with
    | .file sz lnk => some (e.1, sz, lnk)
    | .dir _ => none)

/-- Whether a file participates in the scan: not a skipped dot file, not a
symlink, and not excluded (the three guards of the file loops). -/
def fileCounted (cfg : ScanCfg) (dirpath f : List Char) (lnk : Bool) : Bool :=
  !(cfg.ignoreDot && f.head? == some '.') && !lnk &&
    !(should_exclude (pathJoin dirpath f) cfg.excl)

/-- The `dir_size` accumulated for one directory: the sizes of its direct
files that pass `fileCounted`. -/
def dirSize (cfg : ScanCfg) (dirpath : List Char) (files : List (List Char × Nat × Bool)) : Nat :=
  ((files.filter (fun e => fileCounted cfg dirpath e.1 e.2.2)).map (fun e => e.2.1)).sum

/-- Whether a child directory survives the in-place pruning of `dirnames`
(dot filter, then exclusion filter) and is therefore descended into. -/
def dirKept (cfg : ScanCfg) (dirpath d : List Char) : Bool :=
  !(cfg.ignoreDot && d.head? == some '.') &&
    !(should_exclude (pathJoin dirpath d) cfg.excl)

/-- The kept child directories, in listing order, with their children. -/
def keptDirsOf (cfg : ScanCfg) (dirpath : List Char)
    (children : List (List Char × FSNode)) :
    List (List Char × List (List Char × FSNode)) :=
  children.filterMap (fun e =>
    match e.2 with
    | .dir cs2 => if dirKept cfg dirpath e.1 then some (e.1, cs2) else none
    | .file _ _ => none)

/-- The directory entry (if any) emitted while visiting one directory: when
`scan_directories` is set and the direct-file size reaches the threshold. -/
def dirEntryOf (cfg : ScanCfg) (dirpath : List Char)
    (children : List (List Char × FSNode)) : List (List Char × Nat) :=
  if cfg.scanDirs then
    (if cfg.minBytes ≤ dirSize cfg dirpath (filesOf children) then
      [(dirpath, dirSize cfg dirpath (filesOf children))]
    else [])
  else []

/-- The file entries emitted while visiting one directory: when `scan_files`
is set, every counted file whose size reaches the threshold. -/
def fileEntsOf (cfg : ScanCfg) (dirpath : List Char)
    (children : List (List Char × FSNode)) : List (List Char × Nat) :=
  if cfg.scanFiles then
    (filesOf children).filterMap (fun e =>
      if fileCounted cfg dirpath e.1 e.2.2 && cfg.minBytes ≤ e.2.1 then
        some (pathJoin dirpath e.1, e.2.1)
      else none)
  else []

/-- The body of the `os.walk` loop of `analyze_disk_usage`, emitting for each
visited directory its directory entry and its qualifying file entries, then
the entries of the kept subdirectories. -/
def walkF (cfg : ScanCfg) : Nat → List Char → List (List Char × FSNode) → List (List Char × Nat)
  | 0, _, _ => []
  | n + 1, dirpath, children =>
    if cfg.ignoreDot && hasDotPart dirpath then []
    else
      dirEntryOf cfg dirpath children ++ fileEntsOf cfg dirpath children ++
        (keptDirsOf cfg dirpath children).flatMap
          (fun e => walkF cfg n (pathJoin dirpath e.1) e.2)

/-- Stable descending insertion by size: an element is placed before the
first strictly smaller one, hence after all earlier elements of equal size. -/
def insertDesc (x : List Char × Nat) : List (List Char × Nat) → List (List Char × Nat)
  | [] => [x]
  | y :: ys => if y.2 ≤ x.2 then x :: y :: ys else y :: insertDesc x ys

/-- The stable descending sort performed by
`sorted(results, key=lambda x: x[1], reverse=True)`. -/
def sortDesc : List (List Char × Nat) → List (List Char × Nat)
  | [] => []
  | x :: xs => insertDesc x (sortDesc xs)

/-- `analyze_disk_usage`: the walk followed by the final stable descending
sort. -/
def analyze_disk_usage (cfg : ScanCfg) (fuel : Nat) (root : List Char)
    (children : List (List Char × FSNode)) : List (List Char × Nat) :=
  sortDesc (walkF cfg fuel root children)

/-- All strict descendant directory paths of a tree (pruned or not). -/
def dirPathsF : Nat → List Char → List (List Char × FSNode) → List (List Char)
  | 0, _, _ => []
  | n + 1, dirpath, children =>
    children.flatMap (fun e =>
      match e.2 with
      | .dir cs2 => pathJoin dirpath e.1 :: dirPathsF n (pathJoin dirpath e.1) cs2
      | .file _ _ => [])

/-- A well-formed file-system name: non-empty and without slashes. -/
def wfName (d : List Char) : Bool := !d.isEmpty && !(d.contains '/')

/-- Well-formedness of a children list down to the given depth: distinct
well-formed names at every level. -/
def wfChildren : Nat → List (List Char × FSNode) → Bool
  | 0, _ => true
  | n + 1, children =>
    decide ((children.map Prod.fst).Nodup) &&
      children.all (fun e =>
        wfName e.1 &&
          (match e.2 with
           | .dir cs2 => wfChildren n cs2
           | .file _ _ => true))

/-- Path `p` is at or below path `q` (`q` itself, or properly inside it). -/
def underB (q p : List Char) : Bool := p == q || (childSlash q).isPrefixOf p

/-- The accumulated directory size exactly as the claim words it: the sum of
the sizes of all direct and indirect (recursively nested) descendant files
that are not excluded and not symbolic links.  Kept separate from the size
the code computes, to be compared against it. -/
def specRecSize (excl : List (List Char)) : Nat → List Char → List (List Char × FSNode) → Nat
  | 0, _, _ => 0
  | n + 1, dirpath, children =>
    children.foldl (fun acc e =>
      match e.2 with
      | .file sz lnk =>
        if !lnk && !(should_exclude (pathJoin dirpath e.1) excl) then acc + sz else acc
      | .dir cs2 => acc + specRecSize excl n (pathJoin dirpath e.1) cs2) 0

/-! ## RemovalExecutor: `safe_remove_items` from src/diskface.py lines 245-290

The state is a flat map from target paths to what is currently there: a
regular file (stat size), a directory (its tree, re-walked for the actual
size), or a node of any other kind (fifo, socket, ...), which the code
neither unlinks nor walks.  Each target carries the outcome its removal
system call would produce; `ok` deletes the binding, the failure outcomes
leave the state unchanged and are caught by the per-item handlers. -/

inductive RNode where
  | rfile (size : Nat)
  | rdir (children : List (List Char × FSNode))
  | rother

inductive RmOutcome where
  | ok
  | permDenied
  | otherErr

structure RmTarget where
  node : RNode
  outcome : RmOutcome

/-- `os.path.exists` and friends: what is currently at a path. -/
def lookupFS : List (List Char × RmTarget) → List Char → Option RmTarget
  | [], _ => none
  | e :: rest, p => if e.1 = p then some e.2 else lookupFS rest p

/-- The state after a successful `os.remove`/`shutil.rmtree` of `p`. -/
def eraseFS (fs : List (List Char × RmTarget)) (p : List Char) :
    List (List Char × RmTarget) :=
  fs.filter (fun e => e.1 != p)

/-- The directory re-walk of the executor: sum of all descendant file sizes,
symlinks skipped, no exclusion filtering. -/
def recSizeF : Nat → List (List Char × FSNode) → Nat
  | 0, _ => 0
  | n + 1, children =>
    children.foldl (fun acc e =>
      match e.2 with
      | .file sz lnk => if lnk then acc else acc + sz
      | .dir cs2 => acc + recSizeF n cs2) 0

/-- One iteration of the removal loop: the report entry it produces (if any)
and the new state.  A missing path is skipped; a file or directory is sized
then removed, failures recording nothing; any other node kind falls through
both branches and is recorded with size 0 without any removal call. -/
def removeOne (fuel : Nat) (fs : List (List Char × RmTarget)) (item : List Char × Nat) :
    Option (List Char × Nat) × List (List Char × RmTarget) :=
  match lookupFS fs item.1 with
  | none => (none, fs)
  | some t =>
    match t.node with
    | .rfile sz =>
      match t.outcome with
      | .ok => (some (item.1, sz), eraseFS fs item.1)
      | .permDenied => (none, fs)
      | .otherErr => (none, fs)
    | .rdir cs =>
      match t.outcome with
      | .ok => (some (item.1, recSizeF fuel cs), eraseFS fs item.1)
      | .permDenied => (none, fs)
      | .otherErr => (none, fs)
    | .rother => (some (item.1, 0), fs)

/-- Python dict assignment `removed[path] = size`: overwrite in place when the
key exists, append otherwise. -/
def dictSet (rep : List (List Char × Nat)) (k : List Char) (v : Nat) :
    List (List Char × Nat) :=
  if rep.any (fun e => e.1 == k) then rep.map (fun e => if e.1 = k then (k, v) else e)
  else rep ++ [(k, v)]

/-- The removal loop over the selected items, threading the state and the
report. -/
def removeGo (fuel : Nat) : List (List Char × RmTarget) → List (List Char × Nat) →
    List (List Char × Nat) → List (List Char × Nat) × List (List Char × RmTarget)
  | fs, rep, [] => (rep, fs)
  | fs, rep, it :: rest =>
    match removeOne fuel fs it with
    | (some kv, fs2) => removeGo fuel fs2 (dictSet rep kv.1 kv.2) rest
    | (none, fs2) => removeGo fuel fs2 rep rest

/-- `safe_remove_items(selected_items)`: the removal report and final state. -/
def safe_remove_items (fuel : Nat) (fs : List (List Char × RmTarget))
    (items : List (List Char × Nat)) :
    List (List Char × Nat) × List (List Char × RmTarget) :=
  removeGo fuel fs [] items

/-! # Theorems -/

/-! ## SelectionParser properties -/

lemma parseAll_eq_none_of_mem {m : Int} {ts : List (List Char)} {t : List Char}
    (ht : t ∈ ts) (hfail : parseToken m t = none) : parseAll m ts = none := by
  induction ts with
  | nil => cases ht
  | cons p ps ih =>
    rcases List.mem_cons.mp ht with rfl | hmem
    · simp [parseAll, hfail]
    · cases hp : parseToken m p <;> simp [parseAll, hp, ih hmem]

lemma parseSelectionL_eq_nil_of_fail {sel : List Char} {m : Int} {t : List Char}
    (hall : strLower sel ≠ pyAllChars) (ht : t ∈ tokensOf sel)
    (hfail : parseToken m t = none) : parseSelectionL sel m = [] := by
  unfold parseSelectionL
  rw [if_neg hall, parseAll_eq_none_of_mem ht hfail]

lemma mem_intRange {a b k : Int} : k ∈ intRange a b ↔ a ≤ k ∧ k < b := by
  unfold intRange
  simp only [List.mem_map, List.mem_range]
  constructor
  · rintro ⟨i, hi, rfl⟩
    omega
  · intro hk
    exact ⟨(k - a).toNat, by omega, by omega⟩

lemma sorted_lt_intRange (a b : Int) : List.Sorted (· < ·) (intRange a b) := by
  unfold intRange List.Sorted
  rw [List.pairwise_map]
  exact (List.pairwise_lt_range _).imp (fun h => by omega)

lemma sorted_lt_sort_dedup (l : List Int) :
    List.Sorted (· < ·) (List.insertionSort (fun a b : Int => a ≤ b) l.dedup) := by
  have hs := List.sorted_insertionSort (fun a b : Int => a ≤ b) l.dedup
  have hn : (List.insertionSort (fun a b : Int => a ≤ b) l.dedup).Nodup :=
    ((List.perm_insertionSort (fun a b : Int => a ≤ b) l.dedup).symm).nodup
      (List.nodup_dedup l)
  exact (hn.and hs).imp (fun h => lt_of_le_of_ne h.2 h.1)

/-- C3: any malformed token, out-of-range value, or inverted range rejects the
entire input, yielding the empty index list (the rejection signal); in
particular both "0-2" and "3-2" with maxIndex 5 are rejected. -/
theorem parse_selection_rejects_whole_input :
    (∀ (sel : String) (m : Int), strLower sel.data ≠ pyAllChars →
        (∃ t ∈ tokensOf sel.data, parseToken m t = none) →
        parse_selection sel m = [])
    ∧ parse_selection "0-2" 5 = [] ∧ parse_selection "3-2" 5 = [] := by
  refine ⟨fun sel m hall ht => ?_, rfl, rfl⟩
  obtain ⟨t, htm, hfail⟩ := ht
  exact parseSelectionL_eq_nil_of_fail hall htm hfail

/-- Witness for C3: the single out-of-range token "7" with maxIndex 5 is
rejected. -/
theorem parse_selection_rejects_whole_input_witness : parse_selection "7" 5 = [] :=
  parse_selection_rejects_whole_input.1 "7" 5 (by decide)
    ⟨['7'], by decide, by decide⟩

/-- C7: every accepted result is duplicate-free and strictly ascending; the
case-insensitive whole-input literal "all" expands to exactly the indices
from 1 to maxIndex; the two concrete examples of the spec hold. -/
theorem parse_selection_sorted_dedup_all :
    (∀ (sel : String) (m : Int), List.Sorted (· < ·) (parse_selection sel m))
    ∧ (∀ (sel : String) (m k : Int), strLower sel.data = pyAllChars →
        (k ∈ parse_selection sel m ↔ 1 ≤ k ∧ k ≤ m))
    ∧ parse_selection "all" 5 = [1, 2, 3, 4, 5]
    ∧ parse_selection "2-4 1" 5 = [1, 2, 3, 4] := by
  refine ⟨fun sel m => ?_, fun sel m k hall => ?_, rfl, rfl⟩
  · unfold parse_selection parseSelectionL
    split
    · exact sorted_lt_intRange _ _
    · split
      · exact sorted_lt_sort_dedup _
      · exact List.sorted_nil
  · unfold parse_selection parseSelectionL
    rw [if_pos hall, mem_intRange]
    omega

/-- Witness for C7: instantiating the "all" clause at the input "ALL" with
maxIndex 4 shows membership of 3. -/
theorem parse_selection_sorted_dedup_all_witness :
    (3 : Int) ∈ parse_selection "ALL" 4 :=
  (parse_selection_sorted_dedup_all.2.1 "ALL" 4 3 (by decide)).mpr (by decide)

lemma pyLower_eq_self_of_lt {c : Char} (h : c.toNat < 65) : pyLower c = c := by
  unfold pyLower
  rw [if_neg (by omega)]

lemma isPySpace_elim {c : Char} (h : isPySpace c = true) :
    c = ' ' ∨ c = '\t' ∨ c = '\n' ∨ c = '\r' ∨ c = '\x0b' ∨ c = '\x0c' := by
  have h2 := h
  simp only [isPySpace, Bool.or_eq_true, beq_iff_eq] at h2
  tauto

lemma not_special_of_pyLower_al {c : Char}
    (h : pyLower c = 'a' ∨ pyLower c = 'l') :
    isPySpace c = false ∧ c ≠ ',' ∧ c ≠ '-' ∧ c ≠ '+' ∧ isDigitChar c = false := by
  refine ⟨?_, ?_, ?_, ?_, ?_⟩
  · by_contra hsp
    rw [Bool.not_eq_false] at hsp
    rcases isPySpace_elim hsp with rfl | rfl | rfl | rfl | rfl | rfl <;>
      revert h <;> decide
  · rintro rfl; revert h; decide
  · rintro rfl; revert h; decide
  · rintro rfl; revert h; decide
  · by_contra hd
    rw [Bool.not_eq_false] at hd
    have hb : c.toNat < 65 := by
      simp only [isDigitChar, Bool.and_eq_true, decide_eq_true_eq] at hd
      omega
    rw [pyLower_eq_self_of_lt hb] at h
    rcases h with rfl | rfl <;> exact absurd hd (by decide)

lemma three_chars_of_strLower_all {t : List Char} (h : strLower t = pyAllChars) :
    ∃ c1 c2 c3, t = [c1, c2, c3] ∧
      pyLower c1 = 'a' ∧ pyLower c2 = 'l' ∧ pyLower c3 = 'l' := by
  match t with
  | [] => simp [strLower, pyAllChars] at h
  | [c1] => simp [strLower, pyAllChars] at h
  | [c1, c2] => simp [strLower, pyAllChars] at h
  | [c1, c2, c3] =>
    simp only [strLower, List.map_cons, List.map_nil, pyAllChars,
      List.cons.injEq, and_true] at h
    exact ⟨c1, c2, c3, rfl, h.1, h.2.1, h.2.2⟩
  | c1 :: c2 :: c3 :: c4 :: rest => simp [strLower, pyAllChars] at h

lemma tokensOf_eq_self_of_lower_all {sel : List Char} (h : strLower sel = pyAllChars) :
    tokensOf sel = [sel] := by
  obtain ⟨c1, c2, c3, rfl, h1, h2, h3⟩ := three_chars_of_strLower_all h
  obtain ⟨hs1, hc1, -⟩ := not_special_of_pyLower_al (Or.inl h1)
  obtain ⟨hs2, hc2, -⟩ := not_special_of_pyLower_al (Or.inr h2)
  obtain ⟨hs3, hc3, -⟩ := not_special_of_pyLower_al (Or.inr h3)
  simp [tokensOf, pySplit, commaToSpace, splitWsAux, hc1, hc2, hc3, hs1, hs2, hs3]

lemma parseToken_eq_none_of_lower_all {m : Int} {t : List Char}
    (h : strLower t = pyAllChars) : parseToken m t = none := by
  obtain ⟨c1, c2, c3, rfl, h1, h2, h3⟩ := three_chars_of_strLower_all h
  obtain ⟨-, -, hd1, hp1, hg1⟩ := not_special_of_pyLower_al (Or.inl h1)
  obtain ⟨-, -, hd2, -, -⟩ := not_special_of_pyLower_al (Or.inr h2)
  obtain ⟨-, -, hd3, -, -⟩ := not_special_of_pyLower_al (Or.inr h3)
  simp [parseToken, splitFirstDash, pyInt, pyDigitsGo, hd1, hd2, hd3, hp1, hg1]

lemma splitWsAux_nil_of_all_space {l : List Char}
    (h : ∀ c ∈ l, isPySpace c = true) : splitWsAux l [] = [] := by
  induction l with
  | nil => rfl
  | cons c cs ih =>
    have hc := h c (List.mem_cons_self c cs)
    simp only [splitWsAux, hc, if_true, List.isEmpty_nil]
    exact ih (fun d hd => h d (List.mem_cons_of_mem c hd))

lemma strLower_ne_all_of_all_space {l : List Char}
    (h : ∀ c ∈ l, isPySpace c = true) : strLower l ≠ pyAllChars := by
  intro hall
  obtain ⟨c1, c2, c3, rfl, h1, -, -⟩ := three_chars_of_strLower_all hall
  have hf := (not_special_of_pyLower_al (Or.inl h1)).1
  have hc := h c1 (by simp)
  rw [hf] at hc
  cases hc

lemma tokensOf_nil_of_all_space {l : List Char}
    (h : ∀ c ∈ l, isPySpace c = true) : tokensOf l = [] := by
  unfold tokensOf pySplit
  apply splitWsAux_nil_of_all_space
  intro c hc
  rw [List.mem_map] at hc
  obtain ⟨d, hd, rfl⟩ := hc
  unfold commaToSpace
  split
  · decide
  · exact h d hd

/-- C10: the literal "all" is recognised only as the entire input: any token
list of length at least two containing an "all"-cased token is rejected, and
empty or whitespace-only input likewise yields the empty list,
indistinguishable from a rejection. -/
theorem parse_selection_all_whole_only :
    (∀ (sel : String) (m : Int),
        2 ≤ (tokensOf sel.data).length →
        (∃ t ∈ tokensOf sel.data, strLower t = pyAllChars) →
        parse_selection sel m = [])
    ∧ (∀ (sel : String) (m : Int), (∀ c ∈ sel.data, isPySpace c = true) →
        parse_selection sel m = [])
    ∧ parse_selection "all 1" 5 = [] ∧ parse_selection "1 ALL" 5 = []
    ∧ parse_selection "" 5 = [] ∧ parse_selection " " 5 = [] := by
  refine ⟨fun sel m hlen ht => ?_, fun sel m hsp => ?_, rfl, rfl, rfl, rfl⟩
  · obtain ⟨t, htm, hall⟩ := ht
    by_cases hwhole : strLower sel.data = pyAllChars
    · rw [tokensOf_eq_self_of_lower_all hwhole] at hlen
      simp at hlen
    · exact parseSelectionL_eq_nil_of_fail hwhole htm
        (parseToken_eq_none_of_lower_all hall)
  · have hwhole := strLower_ne_all_of_all_space hsp
    unfold parse_selection parseSelectionL
    rw [if_neg hwhole, tokensOf_nil_of_all_space hsp]
    rfl

/-- Witness for C10: "all 9" is rejected even though "all" alone would be
accepted. -/
theorem parse_selection_all_whole_only_witness : parse_selection "all 9" 5 = [] :=
  parse_selection_all_whole_only.1 "all 9" 5 (by decide)
    ⟨['a', 'l', 'l'], by decide, by decide⟩

/-! ## PatternMatcher properties -/

lemma fnmatchL_empty_pattern (s : List Char) : fnmatchL s [] = s.isEmpty := rfl

lemma splitSlash_ne_nil (l : List Char) : splitSlash l ≠ [] := by
  match l with
  | [] => simp [splitSlash]
  | c :: cs =>
    unfold splitSlash
    split <;> simp

lemma mem_splitSlash_no_slash {l t : List Char} (ht : t ∈ splitSlash l) : '/' ∉ t := by
  induction l generalizing t with
  | nil =>
    simp only [splitSlash, List.mem_singleton] at ht
    subst ht; simp
  | cons c cs ih =>
    obtain ⟨r0, rs, hr⟩ := List.exists_cons_of_ne_nil (splitSlash_ne_nil cs)
    unfold splitSlash at ht
    by_cases hc : c = '/'
    · rw [if_pos hc] at ht
      rcases List.mem_cons.mp ht with rfl | hmem
      · simp
      · exact ih hmem
    · rw [if_neg hc, hr] at ht
      simp only [List.headD_cons, List.tail_cons] at ht
      rcases List.mem_cons.mp ht with rfl | hmem
      · intro hmm
        rcases List.mem_cons.mp hmm with h1 | h2
        · exact hc h1.symm
        · exact ih (hr ▸ List.mem_cons_self _ _) h2
      · exact ih (hr ▸ List.mem_cons_of_mem _ hmem)

lemma splitSlash_no_slash {x : List Char} (hx : '/' ∉ x) : splitSlash x = [x] := by
  induction x with
  | nil => rfl
  | cons c cs ih =>
    have hc : c ≠ '/' := fun h => hx (h ▸ List.mem_cons_self c cs)
    unfold splitSlash
    rw [if_neg hc, ih (fun hm => hx (List.mem_cons_of_mem c hm))]
    rfl

lemma splitSlash_append_slash {x z : List Char} (hx : '/' ∉ x) :
    splitSlash (x ++ '/' :: z) = x :: splitSlash z := by
  induction x with
  | nil => simp [splitSlash]
  | cons c cs ih =>
    have hc : c ≠ '/' := fun h => hx (h ▸ List.mem_cons_self c cs)
    have hcs : '/' ∉ cs := fun hm => hx (List.mem_cons_of_mem c hm)
    rw [List.cons_append, splitSlash, if_neg hc, ih hcs]
    simp

lemma splitSlash_joinSlash {comps : List (List Char)} (hne : comps ≠ [])
    (hns : ∀ t ∈ comps, '/' ∉ t) : splitSlash (joinSlash comps) = comps := by
  induction comps with
  | nil => exact absurd rfl hne
  | cons x xs ih =>
    cases xs with
    | nil => exact splitSlash_no_slash (hns x (by simp))
    | cons y ys =>
      have hx : '/' ∉ x := hns x (by simp)
      show splitSlash (x ++ '/' :: joinSlash (y :: ys)) = x :: y :: ys
      rw [splitSlash_append_slash hx,
        ih (by simp) (fun t ht => hns t (List.mem_cons_of_mem x ht))]

lemma posixComponents_mem_props {l t : List Char} (ht : t ∈ posixComponents l) :
    t ≠ [] ∧ '/' ∉ t := by
  unfold posixComponents at ht
  have hm := List.mem_filter.mp ht
  refine ⟨?_, mem_splitSlash_no_slash hm.1⟩
  have h2 := hm.2
  simp only [Bool.and_eq_true, Bool.not_eq_true', List.isEmpty_eq_false,
    bne_iff_ne, ne_eq] at h2
  exact h2.1

lemma leadingSlashes_eq_zero {l : List Char} (habs : isAbsolutePath l = false) :
    leadingSlashes l = 0 := by
  cases l with
  | nil => rfl
  | cons c cs =>
    have hc : c ≠ '/' := by
      simp only [isAbsolutePath, beq_eq_false_iff_ne, ne_eq] at habs
      exact habs
    simp [leadingSlashes, hc]

lemma splitSlash_purePosix_rel_ne_nil {path : List Char}
    (habs : isAbsolutePath path = false) :
    ∀ t ∈ splitSlash (purePosixStr path), t ≠ [] := by
  intro t ht
  have hroot : posixRoot path = [] := by
    unfold posixRoot
    rw [if_pos (leadingSlashes_eq_zero habs)]
  unfold purePosixStr at ht
  rw [hroot] at ht
  simp only [List.isEmpty_nil, if_true] at ht
  by_cases hcomp : (posixComponents path).isEmpty
  · rw [if_pos hcomp] at ht
    rw [splitSlash_no_slash (by decide)] at ht
    simp only [List.mem_singleton] at ht
    subst ht; simp
  · rw [if_neg hcomp] at ht
    have hne : posixComponents path ≠ [] := by
      intro h; rw [h] at hcomp; exact hcomp rfl
    rw [splitSlash_joinSlash hne
      (fun t2 ht2 => (posixComponents_mem_props ht2).2)] at ht
    exact (posixComponents_mem_props ht).1

/-- The shape of `path_matches_pattern` at the empty pattern: every window is
one normalized-path segment, glob-matched against the empty pattern. -/
lemma pmp_empty_eq (path : List Char) :
    path_matches_pattern path [] =
      (List.range ((splitSlash (purePosixStr path)).length + 1 - 1)).any
        (fun i =>
          fnmatchL (strLower (joinSlash (((splitSlash (purePosixStr path)).drop i).take 1)))
            []) := rfl

/-- C9 amended: the empty pattern never matches a relative path, and an
exclusion set consisting of the empty pattern alone never excludes a relative
path.  (For absolute paths the empty pattern does match; see the
counterexample.) -/
theorem empty_pattern_relative_no_match (path : List Char)
    (habs : isAbsolutePath path = false) :
    path_matches_pattern path [] = false ∧ should_exclude path [[]] = false := by
  have hmain : path_matches_pattern path [] = false := by
    rw [pmp_empty_eq, List.any_eq_false]
    intro i hi
    rw [List.mem_range] at hi
    have hiN : i < (splitSlash (purePosixStr path)).length := by omega
    obtain ⟨x, xs, hx⟩ : ∃ x xs, (splitSlash (purePosixStr path)).drop i = x :: xs := by
      cases hd : (splitSlash (purePosixStr path)).drop i with
      | nil =>
        exfalso
        have := List.drop_eq_nil_iff.mp hd
        omega
      | cons x xs => exact ⟨x, xs, rfl⟩
    have hxmem : x ∈ splitSlash (purePosixStr path) :=
      List.drop_subset i _ (by rw [hx]; exact List.mem_cons_self _ _)
    have hxne := splitSlash_purePosix_rel_ne_nil habs x hxmem
    rw [hx]
    simp only [List.take_succ_cons, List.take_zero]
    show ¬fnmatchL (strLower (joinSlash [x])) [] = true
    show ¬fnmatchL (strLower x) [] = true
    rw [fnmatchL_empty_pattern]
    simp only [List.isEmpty_eq_true, strLower, List.map_eq_nil_iff]
    exact hxne
  exact ⟨hmain, by simp [should_exclude, hmain]⟩

/-- Witness for C9 at the relative path "a/b". -/
theorem empty_pattern_relative_no_match_witness :
    path_matches_pattern "a/b".data [] = false ∧ should_exclude "a/b".data [[]] = false :=
  empty_pattern_relative_no_match "a/b".data (by decide)

/-- C9 counterexample: against the claim, the empty pattern DOES match the
absolute path "/a" (its normalized split contains an empty leading segment,
and the empty glob matches the empty segment), so an exclusion set holding
the empty pattern excludes "/a". -/
theorem empty_pattern_matches_absolute :
    path_matches_pattern "/a".data [] = true
    ∧ should_exclude "/a".data [[]] = true := by decide

/-- C2 amended: for a non-empty, non-absolute pattern with no literal `**`
segment, the matcher returns true iff some contiguous window (with the
segment count of the pattern) of the segments of the NORMALIZED path, rejoined
with '/', case-insensitively glob-matches the pattern.  (The claim words
this with the raw, unnormalized path split; see the counterexample.) -/
theorem matches_window_equiv_normalized (path pattern : List Char)
    (hne : pattern ≠ []) (habs : isAbsolutePath pattern = false)
    (hstar : ['*', '*'] ∉ splitSlash pattern) :
    (path_matches_pattern path pattern = true ↔
      ∃ i, i + (splitSlash pattern).length ≤ (splitSlash (purePosixStr path)).length ∧
        fnmatchL
          (strLower (joinSlash
            (((splitSlash (purePosixStr path)).drop i).take (splitSlash pattern).length)))
          (strLower pattern) = true) := by
  unfold path_matches_pattern
  rw [if_neg (by simp [habs])]
  rw [if_neg (by simpa using hstar)]
  rw [List.any_eq_true]
  constructor
  · rintro ⟨i, hi, hp⟩
    rw [List.mem_range] at hi
    exact ⟨i, by omega, hp⟩
  · rintro ⟨i, hN, hp⟩
    refine ⟨i, List.mem_range.mpr ?_, hp⟩
    have := (splitSlash_ne_nil pattern)
    have hlen : 1 ≤ (splitSlash pattern).length := by
      cases h : splitSlash pattern with
      | nil => exact absurd h this
      | cons a as => simp [h]
    omega

/-- Witness for C2 at path "x/a/b" and pattern "a/b": the window starting at
segment 1 matches. -/
theorem matches_window_equiv_normalized_witness :
    path_matches_pattern "x/a/b".data "a/b".data = true :=
  (matches_window_equiv_normalized "x/a/b".data "a/b".data (by decide) (by decide)
      (by decide)).mpr ⟨1, by decide, by decide⟩

/-- C2 counterexample: at path "a//b" and pattern "a/b" (a pattern inside the
claim scope: non-empty, relative, without `**`), the code returns true
because it splits the normalized path "a/b", while the window test of the
claim wording, splitting the raw path "a//b", returns false. -/
theorem matches_window_raw_split_false :
    path_matches_pattern "a//b".data "a/b".data = true
    ∧ specWindowMatch "a//b".data "a/b".data = false
    ∧ "a/b".data ≠ []
    ∧ isAbsolutePath "a/b".data = false
    ∧ ['*', '*'] ∉ splitSlash "a/b".data := by decide

/-! ## ScanEngine properties -/

lemma insertDesc_perm (x : List Char × Nat) (l : List (List Char × Nat)) :
    List.Perm (insertDesc x l) (x :: l) := by
  induction l with
  | nil => exact List.Perm.refl _
  | cons y ys ih =>
    unfold insertDesc
    split
    · exact List.Perm.refl _
    · exact (List.Perm.cons y ih).trans (List.Perm.swap x y ys)

lemma sortDesc_perm (l : List (List Char × Nat)) : List.Perm (sortDesc l) l := by
  induction l with
  | nil => exact List.Perm.refl _
  | cons x xs ih =>
    exact (insertDesc_perm x (sortDesc xs)).trans (List.Perm.cons x ih)

lemma sorted_insertDesc {x : List Char × Nat} {l : List (List Char × Nat)}
    (hl : List.Sorted (fun a b : List Char × Nat => b.2 ≤ a.2) l) :
    List.Sorted (fun a b : List Char × Nat => b.2 ≤ a.2) (insertDesc x l) := by
  induction l with
  | nil => simp [insertDesc]
  | cons y ys ih =>
    unfold insertDesc
    split
    · rename_i h
      refine List.Pairwise.cons (fun b hb => ?_) hl
      rcases List.mem_cons.mp hb with rfl | hmem
      · exact h
      · exact le_trans (List.rel_of_sorted_cons hl b hmem) h
    · rename_i h
      refine List.Pairwise.cons (fun b hb => ?_) (ih hl.of_cons)
      have hb2 : b ∈ x :: ys := (insertDesc_perm x ys).subset hb
      rcases List.mem_cons.mp hb2 with rfl | hmem
      · omega
      · exact List.rel_of_sorted_cons hl b hmem

lemma sorted_sortDesc (l : List (List Char × Nat)) :
    List.Sorted (fun a b : List Char × Nat => b.2 ≤ a.2) (sortDesc l) := by
  induction l with
  | nil => exact List.sorted_nil
  | cons x xs ih => exact sorted_insertDesc ih

lemma filter_insertDesc (k : Nat) (x : List Char × Nat) (l : List (List Char × Nat)) :
    (insertDesc x l).filter (fun e => e.2 == k) =
      if x.2 = k then x :: l.filter (fun e => e.2 == k)
      else l.filter (fun e => e.2 == k) := by
  induction l with
  | nil =>
    by_cases hx : x.2 = k
    · simp [insertDesc, List.filter_cons, hx]
    · have hx2 : (x.2 == k) = false := by simp [hx]
      simp [insertDesc, List.filter_cons, hx2, hx]
  | cons y ys ih =>
    unfold insertDesc
    split
    · rename_i h
      by_cases hx : x.2 = k <;> simp [List.filter_cons, hx]
    · rename_i h
      by_cases hx : x.2 = k
      · have hy : (y.2 == k) = false := by
          simp only [beq_eq_false_iff_ne, ne_eq]
          omega
        simp only [List.filter_cons, hy, Bool.false_eq_true, if_false, ih, if_pos hx]
      · simp only [List.filter_cons, ih, if_neg hx]

lemma filter_sortDesc (k : Nat) (l : List (List Char × Nat)) :
    (sortDesc l).filter (fun e => e.2 == k) = l.filter (fun e => e.2 == k) := by
  induction l with
  | nil => rfl
  | cons x xs ih =>
    show (insertDesc x (sortDesc xs)).filter (fun e => e.2 == k) = _
    rw [filter_insertDesc, ih, List.filter_cons]
    by_cases hx : x.2 = k
    · rw [if_pos hx]
      simp [hx]
    · rw [if_neg hx]
      simp [hx]

/-- C8: the scan result is the emitted entries sorted descending by size,
and the sort is stable: it is a permutation of the emission list, pairwise
descending in size, and filtering both lists by any fixed size value yields
identical subsequences, so entries of equal size keep their discovery
order. -/
theorem scan_result_sorted_stable (cfg : ScanCfg) (fuel : Nat) (root : List Char)
    (children : List (List Char × FSNode)) :
    List.Sorted (fun a b : List Char × Nat => b.2 ≤ a.2)
        (analyze_disk_usage cfg fuel root children)
    ∧ List.Perm (analyze_disk_usage cfg fuel root children) (walkF cfg fuel root children)
    ∧ ∀ k : Nat,
        (analyze_disk_usage cfg fuel root children).filter (fun e => e.2 == k) =
          (walkF cfg fuel root children).filter (fun e => e.2 == k) :=
  ⟨sorted_sortDesc _, sortDesc_perm _, fun k => filter_sortDesc k _⟩

lemma prefix_childSlash (p : List Char) : p <+: childSlash p := by
  unfold childSlash
  split
  · exact List.prefix_refl p
  · split
    · exact List.prefix_refl p
    · exact List.prefix_append p ['/']

lemma childSlash_length (p : List Char) : p.length ≤ (childSlash p).length :=
  (prefix_childSlash p).length_le

lemma underB_iff {q p : List Char} :
    underB q p = true ↔ p = q ∨ childSlash q <+: p := by
  unfold underB
  simp [ List.isPrefixOf_iff_prefix]

lemma underB_refl (q : List Char) : underB q q = true := by
  simp [underB]

lemma underB_trans {a b c : List Char} (h1 : underB a b = true)
    (h2 : underB b c = true) : underB a c = true := by
  rw [underB_iff] at h1 h2 ⊢
  rcases h1 with rfl | h1
  · exact h2
  · rcases h2 with rfl | h2
    · exact Or.inr h1
    · exact Or.inr (h1.trans ((prefix_childSlash b).trans h2))

lemma underB_pathJoin (r d : List Char) : underB r (pathJoin r d) = true := by
  rw [underB_iff]
  exact Or.inr (List.prefix_append _ _)

lemma childSlash_of_name_end {r d : List Char} (hd : d ≠ []) (hs : '/' ∉ d) :
    childSlash (pathJoin r d) = pathJoin r d ++ ['/'] := by
  unfold childSlash pathJoin
  have hne : (childSlash r ++ d).isEmpty = false := by
    rw [List.isEmpty_eq_false]
    intro h
    exact hd (List.append_eq_nil.mp h).2
  rw [hne]
  simp only [Bool.false_eq_true, if_false]
  rw [if_neg]
  intro hlast
  rw [List.getLast?_append] at hlast
  cases hgl : d.getLast? with
  | none =>
    rw [List.getLast?_eq_none_iff] at hgl
    exact hd hgl
  | some c =>
    rw [hgl] at hlast
    simp only [Option.or_some, Option.some.injEq] at hlast
    subst hlast
    exact hs (List.mem_of_mem_getLast? (by rw [hgl]; exact rfl))

lemma slash_mem_of_append_slash {d f : List Char} (h : d ++ ['/'] <+: f) : '/' ∈ f :=
  h.subset (by simp)

lemma name_slash_prefix_eq {a b : List Char} (hb : '/' ∉ b)
    (h : a ++ ['/'] <+: b ++ ['/']) : a = b := by
  obtain ⟨t, ht⟩ := h
  rcases List.eq_nil_or_concat t with rfl | ⟨t2, c, rfl⟩
  · rw [List.append_nil] at ht
    exact List.append_cancel_right ht
  · exfalso
    rw [List.concat_eq_append, ← List.append_assoc] at ht
    obtain ⟨h1, -⟩ := List.append_inj' ht rfl
    apply hb
    rw [← h1]
    simp

lemma mem_filesOf {children : List (List Char × FSNode)} {f : List Char} {sz : Nat}
    {lnk : Bool} (h : (f, sz, lnk) ∈ filesOf children) :
    (f, FSNode.file sz lnk) ∈ children := by
  unfold filesOf at h
  rw [List.mem_filterMap] at h
  obtain ⟨⟨a1, a2⟩, ha, hsome⟩ := h
  cases a2 with
  | file sz2 lnk2 =>
    simp only [Option.some.injEq, Prod.mk.injEq] at hsome
    obtain ⟨rfl, rfl, rfl⟩ := hsome
    exact ha
  | dir cs2 => simp at hsome

lemma keys_nodup_eq {cs : List (List Char × FSNode)} {d : List Char} {x y : FSNode}
    (hnd : (cs.map Prod.fst).Nodup) (hx : (d, x) ∈ cs) (hy : (d, y) ∈ cs) : x = y := by
  induction cs with
  | nil => cases hx
  | cons c rest ih =>
    rw [List.map_cons, List.nodup_cons] at hnd
    rcases List.mem_cons.mp hx with h1 | hx2
    · rcases List.mem_cons.mp hy with h2 | hy2
      · have h3 := h1.trans h2.symm
        rw [Prod.mk.injEq] at h3
        exact h3.2
      · exfalso
        apply hnd.1
        rw [← h1]
        exact List.mem_map.mpr ⟨(d, y), hy2, rfl⟩
    · rcases List.mem_cons.mp hy with h2 | hy2
      · exfalso
        apply hnd.1
        rw [← h2]
        exact List.mem_map.mpr ⟨(d, x), hx2, rfl⟩
      · exact ih hnd.2 hx2 hy2

lemma mem_dirEntryOf {cfg : ScanCfg} {dirpath : List Char}
    {children : List (List Char × FSNode)} {e : List Char × Nat}
    (he : e ∈ dirEntryOf cfg dirpath children) :
    e = (dirpath, dirSize cfg dirpath (filesOf children))
      ∧ cfg.scanDirs = true
      ∧ cfg.minBytes ≤ dirSize cfg dirpath (filesOf children) := by
  unfold dirEntryOf at he
  split at he
  · split at he
    · rename_i h1 h2
      simp only [List.mem_singleton] at he
      exact ⟨he, h1, h2⟩
    · cases he
  · cases he

lemma mem_fileEntsOf {cfg : ScanCfg} {dirpath : List Char}
    {children : List (List Char × FSNode)} {e : List Char × Nat}
    (he : e ∈ fileEntsOf cfg dirpath children) :
    ∃ f sz lnk, (f, sz, lnk) ∈ filesOf children ∧ e = (pathJoin dirpath f, sz)
      ∧ fileCounted cfg dirpath f lnk = true ∧ cfg.minBytes ≤ sz := by
  unfold fileEntsOf at he
  split at he
  · rw [List.mem_filterMap] at he
    obtain ⟨a, ha, hsome⟩ := he
    split at hsome
    · rename_i hcond
      rw [Option.some.injEq] at hsome
      rw [Bool.and_eq_true] at hcond
      exact ⟨a.1, a.2.1, a.2.2, ha, hsome.symm, hcond.1, by simpa using hcond.2⟩
    · cases hsome
  · cases he

lemma mem_keptDirsOf {cfg : ScanCfg} {dirpath : List Char}
    {children : List (List Char × FSNode)} {d : List Char}
    {cs2 : List (List Char × FSNode)}
    (h : (d, cs2) ∈ keptDirsOf cfg dirpath children) :
    (d, FSNode.dir cs2) ∈ children ∧ dirKept cfg dirpath d = true := by
  unfold keptDirsOf at h
  rw [List.mem_filterMap] at h
  obtain ⟨⟨a1, a2⟩, ha, hsome⟩ := h
  cases a2 with
  | file sz lnk => simp at hsome
  | dir cs' =>
    simp only at hsome
    split at hsome
    · rename_i hkept
      rw [Option.some.injEq, Prod.mk.injEq] at hsome
      obtain ⟨rfl, rfl⟩ := hsome
      exact ⟨ha, hkept⟩
    · cases hsome

lemma mem_walkF_succ {cfg : ScanCfg} {n : Nat} {dirpath : List Char}
    {children : List (List Char × FSNode)} {e : List Char × Nat}
    (he : e ∈ walkF cfg (n + 1) dirpath children) :
    e ∈ dirEntryOf cfg dirpath children ∨ e ∈ fileEntsOf cfg dirpath children ∨
      ∃ d cs2, (d, cs2) ∈ keptDirsOf cfg dirpath children ∧
        e ∈ walkF cfg n (pathJoin dirpath d) cs2 := by
  rw [walkF] at he
  split at he
  · cases he
  · rw [List.mem_append, List.mem_append, List.mem_flatMap] at he
    rcases he with (h | h) | h
    · exact Or.inl h
    · exact Or.inr (Or.inl h)
    · obtain ⟨⟨d, cs2⟩, hd, hmem⟩ := h
      exact Or.inr (Or.inr ⟨d, cs2, hd, hmem⟩)

lemma walkF_paths_under (cfg : ScanCfg) :
    ∀ (n : Nat) (r : List Char) (cs : List (List Char × FSNode)) (e : List Char × Nat),
      e ∈ walkF cfg n r cs → underB r e.1 = true := by
  intro n
  induction n with
  | zero =>
    intro r cs e he
    simp [walkF] at he
  | succ n ih =>
    intro r cs e he
    rcases mem_walkF_succ he with h | h | ⟨d, cs2, hd, hmem⟩
    · obtain ⟨rfl, -, -⟩ := mem_dirEntryOf h
      exact underB_refl r
    · obtain ⟨f, sz, lnk, -, rfl, -, -⟩ := mem_fileEntsOf h
      exact underB_pathJoin r f
    · exact underB_trans (underB_pathJoin r d) (ih _ _ _ hmem)

lemma mem_dirPathsF_succ {n : Nat} {r q : List Char} {cs : List (List Char × FSNode)}
    (h : q ∈ dirPathsF (n + 1) r cs) :
    ∃ d cs2, (d, FSNode.dir cs2) ∈ cs ∧
      (q = pathJoin r d ∨ q ∈ dirPathsF n (pathJoin r d) cs2) := by
  rw [dirPathsF, List.mem_flatMap] at h
  obtain ⟨⟨d, node⟩, hd, hmem⟩ := h
  cases node with
  | file sz lnk => simp at hmem
  | dir cs2 =>
    simp only at hmem
    exact ⟨d, cs2, hd, List.mem_cons.mp hmem⟩

lemma wfName_elim {d : List Char} (h : wfName d = true) : d ≠ [] ∧ '/' ∉ d := by
  rw [wfName, Bool.and_eq_true] at h
  constructor
  · have := h.1
    simp only [Bool.not_eq_true', List.isEmpty_eq_false] at this
    exact this
  · have := h.2
    simp only [Bool.not_eq_true'] at this
    simpa using this

lemma wfChildren_elim {n : Nat} {cs : List (List Char × FSNode)}
    (h : wfChildren (n + 1) cs = true) :
    (cs.map Prod.fst).Nodup ∧
      (∀ e ∈ cs, wfName e.1 = true) ∧
      (∀ d cs2, (d, FSNode.dir cs2) ∈ cs → wfChildren n cs2 = true) := by
  rw [wfChildren, Bool.and_eq_true, decide_eq_true_eq, List.all_eq_true] at h
  refine ⟨h.1, fun e he => ?_, fun d cs2 hmem => ?_⟩
  · have h3 := h.2 e he
    rw [Bool.and_eq_true] at h3
    exact h3.1
  · have h3 := h.2 (d, .dir cs2) hmem
    rw [Bool.and_eq_true] at h3
    simpa using h3.2

lemma dirPathsF_strict_under :
    ∀ (n : Nat) (r : List Char) (cs : List (List Char × FSNode)) (q : List Char),
      wfChildren n cs = true → q ∈ dirPathsF n r cs →
      childSlash r <+: q ∧ r.length < q.length ∧ childSlash q = q ++ ['/'] := by
  intro n
  induction n with
  | zero =>
    intro r cs q hwf hq
    simp [dirPathsF] at hq
  | succ n ih =>
    intro r cs q hwf hq
    obtain ⟨hnodup, hnames, hsub⟩ := wfChildren_elim hwf
    obtain ⟨d, cs2, hmem, hq2⟩ := mem_dirPathsF_succ hq
    obtain ⟨hdne, hdns⟩ := wfName_elim (hnames (d, .dir cs2) hmem)
    have hdlen : 1 ≤ d.length := by
      cases d with
      | nil => exact absurd rfl hdne
      | cons a as => simp
    have hjlen : r.length < (pathJoin r d).length := by
      have h1 := childSlash_length r
      have h2 : (pathJoin r d).length = (childSlash r).length + d.length := by
        simp [pathJoin]
      omega
    rcases hq2 with rfl | hq2
    · exact ⟨List.prefix_append _ _, hjlen, childSlash_of_name_end hdne hdns⟩
    · obtain ⟨hp, hl, hcs⟩ := ih (pathJoin r d) cs2 q (hsub d cs2 hmem) hq2
      refine ⟨?_, by omega, hcs⟩
      exact (List.prefix_append _ _).trans ((prefix_childSlash _).trans hp)

lemma dirKept_false_of_excl {cfg : ScanCfg} {r d : List Char}
    (h : should_exclude (pathJoin r d) cfg.excl = true) :
    dirKept cfg r d = false := by
  rw [dirKept, h]
  simp

lemma dirKept_not_excl {cfg : ScanCfg} {r d : List Char}
    (h : dirKept cfg r d = true) : should_exclude (pathJoin r d) cfg.excl = false := by
  rw [dirKept, Bool.and_eq_true] at h
  have := h.2
  simp only [Bool.not_eq_true'] at this
  exact this

lemma fileCounted_not_excl {cfg : ScanCfg} {r f : List Char} {lnk : Bool}
    (h : fileCounted cfg r f lnk = true) :
    should_exclude (pathJoin r f) cfg.excl = false := by
  rw [fileCounted, Bool.and_eq_true] at h
  have := h.2
  simp only [Bool.not_eq_true'] at this
  exact this

lemma filesOf_irrelevant_dir (pre post : List (List Char × FSNode)) (d : List Char)
    (sub sub' : List (List Char × FSNode)) :
    filesOf (pre ++ (d, FSNode.dir sub) :: post) =
      filesOf (pre ++ (d, FSNode.dir sub') :: post) := by
  simp [filesOf, List.filterMap_append, List.filterMap_cons]

lemma keptDirsOf_excluded_dir {cfg : ScanCfg} {r : List Char}
    (pre post : List (List Char × FSNode)) (d : List Char)
    (sub sub' : List (List Char × FSNode))
    (h : should_exclude (pathJoin r d) cfg.excl = true) :
    keptDirsOf cfg r (pre ++ (d, FSNode.dir sub) :: post) =
      keptDirsOf cfg r (pre ++ (d, FSNode.dir sub') :: post) := by
  have hk := dirKept_false_of_excl h
  simp [keptDirsOf, List.filterMap_append, List.filterMap_cons, hk]

lemma walkF_excluded_dir_irrelevant (cfg : ScanCfg) (n : Nat) (r d : List Char)
    (pre post sub sub' : List (List Char × FSNode))
    (h : should_exclude (pathJoin r d) cfg.excl = true) :
    walkF cfg n r (pre ++ (d, FSNode.dir sub) :: post) =
      walkF cfg n r (pre ++ (d, FSNode.dir sub') :: post) := by
  cases n with
  | zero => rfl
  | succ n =>
    rw [walkF, walkF]
    have hfiles := filesOf_irrelevant_dir pre post d sub sub'
    have hkept := keptDirsOf_excluded_dir pre post d sub sub' h
    rw [dirEntryOf, dirEntryOf, fileEntsOf, fileEntsOf, hfiles, hkept]

lemma join_prefix_cancel {r a b : List Char}
    (h : pathJoin r a ++ ['/'] <+: pathJoin r b ++ ['/']) :
    a ++ ['/'] <+: b ++ ['/'] := by
  have h2 : childSlash r ++ (a ++ ['/']) <+: childSlash r ++ (b ++ ['/']) := by
    simpa [pathJoin, List.append_assoc] using h
  exact (List.prefix_append_right_inj _).mp h2

lemma join_prefix_cancel' {r a b : List Char}
    (h : pathJoin r a ++ ['/'] <+: pathJoin r b) : a ++ ['/'] <+: b := by
  have h2 : childSlash r ++ (a ++ ['/']) <+: childSlash r ++ b := by
    simpa [pathJoin, List.append_assoc] using h
  exact (List.prefix_append_right_inj _).mp h2

lemma join_slash_name_eq {r d d' : List Char} (hns : '/' ∉ d')
    (h : pathJoin r d ++ ['/'] <+: pathJoin r d' ++ ['/']) : d = d' :=
  name_slash_prefix_eq hns (join_prefix_cancel h)

lemma walkF_no_entry_under_excluded (cfg : ScanCfg) :
    ∀ (n : Nat) (r : List Char) (cs : List (List Char × FSNode)) (q : List Char),
      wfChildren n cs = true →
      q ∈ dirPathsF n r cs →
      should_exclude q cfg.excl = true →
      ∀ e ∈ walkF cfg n r cs, underB q e.1 = false := by
  intro n
  induction n with
  | zero =>
    intro r cs q hwf hq
    simp [dirPathsF] at hq
  | succ n ih =>
    intro r cs q hwf hq hex e he
    obtain ⟨hqpref, hqlen, hqslash⟩ := dirPathsF_strict_under (n + 1) r cs q hwf hq
    obtain ⟨hnodup, hnames, hsub⟩ := wfChildren_elim hwf
    obtain ⟨d0, cs0, hmem0, hq2⟩ := mem_dirPathsF_succ hq
    have hn0 : wfName d0 = true := hnames (d0, .dir cs0) hmem0
    obtain ⟨hd0ne, hd0ns⟩ := wfName_elim hn0
    rcases mem_walkF_succ he with hsrc | hsrc | hsrc
    · -- the current directory entry: its path is r, strictly above q
      obtain ⟨rfl, -, -⟩ := mem_dirEntryOf hsrc
      show underB q r = false
      rw [Bool.eq_false_iff]
      intro hunder
      rw [underB_iff] at hunder
      rcases hunder with h1 | h2
      · have := congrArg List.length h1
        omega
      · have h3 := h2.length_le
        have h4 := childSlash_length q
        omega
    · -- a file entry of the current directory: its path r/f is not under q
      obtain ⟨f, sz, lnk, hfm, rfl, hfc, -⟩ := mem_fileEntsOf hsrc
      have hnf : wfName f = true := hnames (f, .file sz lnk) (mem_filesOf hfm)
      obtain ⟨-, hfns⟩ := wfName_elim hnf
      show underB q (pathJoin r f) = false
      rw [Bool.eq_false_iff]
      intro hunder
      rw [underB_iff] at hunder
      rcases hunder with h1 | h2
      · have hxf := fileCounted_not_excl hfc
        rw [h1, hex] at hxf
        cases hxf
      · rw [hqslash] at h2
        obtain ⟨t, ht⟩ := hqpref
        rw [← ht] at h2
        have h3 : childSlash r ++ (t ++ ['/']) <+: childSlash r ++ f := by
          simpa [pathJoin, List.append_assoc] using h2
        have h4 := (List.prefix_append_right_inj _).mp h3
        exact hfns (slash_mem_of_append_slash h4)
    · -- entries coming from a kept child subtree
      obtain ⟨d', cs', hd', hmem'⟩ := hsrc
      obtain ⟨hd'mem, hd'kept⟩ := mem_keptDirsOf hd'
      have hn' : wfName d' = true := hnames (d', .dir cs') hd'mem
      obtain ⟨hd'ne, hd'ns⟩ := wfName_elim hn'
      have hcs' : childSlash (pathJoin r d') = pathJoin r d' ++ ['/'] :=
        childSlash_of_name_end hd'ne hd'ns
      by_cases hdd : d' = d0
      · -- the child containing q: it is either pruned (q = its path, excluded,
        -- kept is contradictory) or the induction hypothesis applies
        subst hdd
        have hnode : FSNode.dir cs' = FSNode.dir cs0 := keys_nodup_eq hnodup hd'mem hmem0
        have hcs0 : cs' = cs0 := by injection hnode
        rcases hq2 with rfl | hdeep
        · rw [dirKept_not_excl hd'kept] at hex
          cases hex
        · subst hcs0
          exact ih (pathJoin r d') cs' q (hsub d' cs' hmem0) hdeep hex e hmem'
      · -- a sibling child: its subtree paths are incomparable with q
        rw [Bool.eq_false_iff]
        intro hunder
        rw [underB_iff] at hunder
        have hu' := walkF_paths_under cfg n (pathJoin r d') cs' e hmem'
        rw [underB_iff] at hu'
        have hq3 : q = pathJoin r d0 ∨ (pathJoin r d0 ++ ['/'] <+: q) := by
          rcases hq2 with rfl | hdeep
          · exact Or.inl rfl
          · obtain ⟨hp, -, -⟩ :=
              dirPathsF_strict_under n _ cs0 q (hsub d0 cs0 hmem0) hdeep
            rw [childSlash_of_name_end hd0ne hd0ns] at hp
            exact Or.inr hp
        rcases hunder with he1 | he2
        · -- e.1 = q
          rcases hu' with hh1 | hh2
          · -- e.1 is the child path itself
            have hq4 : q = pathJoin r d' := by rw [← he1, hh1]
            rcases hq3 with hq5 | hq5
            · exact hdd (List.append_cancel_left (hq4.symm.trans hq5))
            · rw [hq4] at hq5
              exact hd'ns (slash_mem_of_append_slash (join_prefix_cancel' hq5))
          · rw [hcs', he1] at hh2
            rcases hq3 with hq5 | hq5
            · rw [hq5] at hh2
              exact hd0ns (slash_mem_of_append_slash (join_prefix_cancel' hh2))
            · rcases List.prefix_or_prefix_of_prefix hh2 hq5 with hc | hc
              · exact hdd (join_slash_name_eq hd0ns hc)
              · exact hdd (join_slash_name_eq hd'ns hc).symm
        · -- q is a proper prefix of e.1
          rcases hq3 with rfl | hq5
          · rw [childSlash_of_name_end hd0ne hd0ns] at he2
            rcases hu' with hh1 | hh2
            · rw [hh1] at he2
              exact hd'ns (slash_mem_of_append_slash (join_prefix_cancel' he2))
            · rw [hcs'] at hh2
              rcases List.prefix_or_prefix_of_prefix he2 hh2 with hc | hc
              · exact hdd (join_slash_name_eq hd'ns hc).symm
              · exact hdd (join_slash_name_eq hd0ns hc)
          · have he3 : pathJoin r d0 ++ ['/'] <+: e.1 :=
              hq5.trans ((prefix_childSlash q).trans he2)
            rcases hu' with hh1 | hh2
            · rw [hh1] at he3
              exact hd'ns (slash_mem_of_append_slash (join_prefix_cancel' he3))
            · rw [hcs'] at hh2
              rcases List.prefix_or_prefix_of_prefix he3 hh2 with hc | hc
              · exact hdd (join_slash_name_eq hd'ns hc).symm
              · exact hdd (join_slash_name_eq hd0ns hc)

/-- C6 amended: (a) pruning: a child directory whose full path matches an
exclusion pattern is removed from the child list before recursion, so the
scan output does not depend on the contents of that directory at all; (b)
consequently no entry of the returned result lies at or below any excluded
directory strictly inside the walked tree.  The scan root itself is never
tested against the exclusions, which is why (b) is restricted to strict
descendants; see the counterexample. -/
theorem scan_prunes_excluded_dirs :
    (∀ (cfg : ScanCfg) (n : Nat) (r d : List Char)
        (pre post sub sub' : List (List Char × FSNode)),
        should_exclude (pathJoin r d) cfg.excl = true →
        walkF cfg n r (pre ++ (d, FSNode.dir sub) :: post) =
          walkF cfg n r (pre ++ (d, FSNode.dir sub') :: post))
    ∧ (∀ (cfg : ScanCfg) (n : Nat) (r q : List Char)
        (cs : List (List Char × FSNode)),
        wfChildren n cs = true → q ∈ dirPathsF n r cs →
        should_exclude q cfg.excl = true →
        ∀ e ∈ analyze_disk_usage cfg n r cs, underB q e.1 = false) := by
  refine ⟨fun cfg n r d pre post sub sub' h =>
    walkF_excluded_dir_irrelevant cfg n r d pre post sub sub' h,
    fun cfg n r q cs hwf hq hex e he => ?_⟩
  exact walkF_no_entry_under_excluded cfg n r cs q hwf hq hex e
    ((sortDesc_perm _).subset he)

/-- Witness for C6: with root "/r" containing subdirectories "x" (excluded
by pattern "/r/x") and "y", the emitted entry "/r/y" is not under the
excluded directory. -/
theorem scan_prunes_excluded_dirs_witness :
    underB "/r/x".data "/r/y".data = false :=
  scan_prunes_excluded_dirs.2 ⟨["/r/x".data], 0, true, false, false⟩ 3
    "/r".data "/r/x".data
    [("x".data, FSNode.dir [("g".data, FSNode.file 9 false)]),
     ("y".data, FSNode.dir [("h".data, FSNode.file 9 false)])]
    (by decide) (by decide) (by decide) ("/r/y".data, 9) (by decide)

/-- C6 counterexample: the scan root itself is never tested against the
exclusions: with root "/r" excluded by the pattern "/r", the scan still
emits the root entry, which is equal to (hence at-or-under) an excluded
directory. -/
theorem scan_root_exclusion_not_applied :
    should_exclude "/r".data ["/r".data] = true
    ∧ ("/r".data, 5) ∈
        analyze_disk_usage ⟨["/r".data], 0, true, false, false⟩ 3 "/r".data
          [("f".data, FSNode.file 5 false)]
    ∧ underB "/r".data "/r".data = true := by decide

/-- C1 amended: a directory entry of the scan records the sum of the sizes
of the DIRECT child files that are counted (not dot-skipped, not symlinks,
not excluded), and the path of the visited directory occurs in the walk output
exactly when directory scanning is on and that direct sum reaches the
threshold.  Since the walk treats every visited directory as the root of its
own subtree walk, instantiating this at any subtree characterises every
directory entry.  (The claim asks for the recursive descendant sum; see the
counterexample.) -/
theorem scan_dir_entry_direct_size (cfg : ScanCfg) (n : Nat) (r : List Char)
    (cs : List (List Char × FSNode)) (s : Nat)
    (hwf : wfChildren (n + 1) cs = true)
    (hdot : ¬(cfg.ignoreDot = true ∧ hasDotPart r = true)) :
    ((r, s) ∈ walkF cfg (n + 1) r cs ↔
      cfg.scanDirs = true ∧ s = dirSize cfg r (filesOf cs)
        ∧ cfg.minBytes ≤ dirSize cfg r (filesOf cs)) := by
  obtain ⟨-, hnames, -⟩ := wfChildren_elim hwf
  constructor
  · intro he
    rcases mem_walkF_succ he with hsrc | hsrc | hsrc
    · obtain ⟨heq, hS, hmin⟩ := mem_dirEntryOf hsrc
      rw [Prod.mk.injEq] at heq
      exact ⟨hS, heq.2, hmin⟩
    · exfalso
      obtain ⟨f, sz, lnk, hfm, heq, -, -⟩ := mem_fileEntsOf hsrc
      have hnf : wfName f = true := hnames (f, .file sz lnk) (mem_filesOf hfm)
      obtain ⟨hfne, -⟩ := wfName_elim hnf
      rw [Prod.mk.injEq] at heq
      have hlen := congrArg List.length heq.1
      have h1 := childSlash_length r
      have h2 : (pathJoin r f).length = (childSlash r).length + f.length := by
        simp [pathJoin]
      have h3 : 1 ≤ f.length := by
        cases f with
        | nil => exact absurd rfl hfne
        | cons a as => simp
      simp only [h2] at hlen
      omega
    · exfalso
      obtain ⟨d, cs2, hd, hmem⟩ := hsrc
      obtain ⟨hdmem, -⟩ := mem_keptDirsOf hd
      have hnd : wfName d = true := hnames (d, .dir cs2) hdmem
      obtain ⟨hdne, -⟩ := wfName_elim hnd
      have hu : underB (pathJoin r d) r = true :=
        walkF_paths_under cfg n (pathJoin r d) cs2 _ hmem
      rw [underB_iff] at hu
      have h1 := childSlash_length r
      have h2 : (pathJoin r d).length = (childSlash r).length + d.length := by
        simp [pathJoin]
      have h3 : 1 ≤ d.length := by
        cases d with
        | nil => exact absurd rfl hdne
        | cons a as => simp
      rcases hu with h4 | h4
      · have hlen := congrArg List.length h4
        simp only [h2] at hlen
        omega
      · have h5 := h4.length_le
        have h6 := childSlash_length (pathJoin r d)
        simp only [h2] at h6
        omega
  · rintro ⟨hS, rfl, hmin⟩
    rw [walkF]
    have hcond : (cfg.ignoreDot && hasDotPart r) = false := by
      rw [Bool.and_eq_false_iff]
      by_cases h1 : cfg.ignoreDot = true
      · exact Or.inr (by rw [Bool.eq_false_iff]; exact fun h2 => hdot ⟨h1, h2⟩)
      · exact Or.inl (by rwa [Bool.not_eq_true] at h1)
    rw [hcond]
    simp only [Bool.false_eq_true, if_false, List.mem_append]
    left
    left
    unfold dirEntryOf
    rw [if_pos hS, if_pos hmin]
    exact List.mem_singleton.mpr rfl

/-- Witness for C1 at a root with a single directly contained 7-byte file
and threshold 3. -/
theorem scan_dir_entry_direct_size_witness :
    ("r".data, 7) ∈ walkF ⟨[], 3, true, false, false⟩ 2 "r".data
      [("f".data, FSNode.file 7 false)] :=
  (scan_dir_entry_direct_size ⟨[], 3, true, false, false⟩ 1 "r".data
      [("f".data, FSNode.file 7 false)] 7 (by decide) (by decide)).mpr
    ⟨rfl, by decide, by decide⟩

/-- C1 counterexample: root "/r" holds only the subdirectory "a" with a
5-byte file; with threshold 3 the recursive descendant sum of the root is
5 ≥ 3, yet the scan emits no entry for "/r" (the code sums only DIRECT child
files and the root has none), refuting the emitted-iff-recursive-sum
claim. -/
theorem scan_dir_entry_recursive_claim_false :
    specRecSize [] 3 "/r".data
        [("a".data, FSNode.dir [("f".data, FSNode.file 5 false)])] = 5
    ∧ 3 ≤ 5
    ∧ analyze_disk_usage ⟨[], 3, true, false, false⟩ 3 "/r".data
        [("a".data, FSNode.dir [("f".data, FSNode.file 5 false)])] =
      [("/r/a".data, 5)]
    ∧ "/r".data ∉
        (analyze_disk_usage ⟨[], 3, true, false, false⟩ 3 "/r".data
          [("a".data, FSNode.dir [("f".data, FSNode.file 5 false)])]).map
          Prod.fst := by decide

/-! ## RemovalExecutor properties -/

lemma lookupFS_eraseFS (fs : List (List Char × RmTarget)) (p : List Char) :
    lookupFS (eraseFS fs p) p = none := by
  induction fs with
  | nil => rfl
  | cons e rest ih =>
    rw [eraseFS, List.filter_cons]
    by_cases he : e.1 = p
    · have hb : (e.1 != p) = false := by simp [he]
      rw [hb]
      simp only [Bool.false_eq_true, if_false]
      exact ih
    · have hb : (e.1 != p) = true := by simp [he]
      rw [hb]
      simp only [if_true]
      rw [lookupFS, if_neg he]
      exact ih

lemma lookupFS_eraseFS_none {fs : List (List Char × RmTarget)} {x p : List Char}
    (h : lookupFS fs p = none) : lookupFS (eraseFS fs x) p = none := by
  induction fs with
  | nil => rfl
  | cons e rest ih =>
    rw [lookupFS] at h
    split at h
    · cases h
    · rename_i he
      rw [eraseFS, List.filter_cons]
      by_cases hx : (e.1 != x) = true
      · rw [hx]
        simp only [if_true]
        rw [lookupFS, if_neg he]
        exact ih h
      · rw [Bool.not_eq_true] at hx
        rw [hx]
        simp only [Bool.false_eq_true, if_false]
        exact ih h

lemma removeOne_snd_cases (fuel : Nat) (fs : List (List Char × RmTarget))
    (it : List Char × Nat) :
    (removeOne fuel fs it).2 = fs ∨ (removeOne fuel fs it).2 = eraseFS fs it.1 := by
  unfold removeOne
  cases lookupFS fs it.1 with
  | none => exact Or.inl rfl
  | some t =>
    obtain ⟨node, outcome⟩ := t
    cases node with
    | rfile sz => cases outcome <;> simp
    | rdir cs => cases outcome <;> simp
    | rother => exact Or.inl rfl

lemma lookupFS_none_preserved {fuel : Nat} {fs : List (List Char × RmTarget)}
    {it : List Char × Nat} {p : List Char} (h : lookupFS fs p = none) :
    lookupFS (removeOne fuel fs it).2 p = none := by
  rcases removeOne_snd_cases fuel fs it with h2 | h2 <;> rw [h2]
  · exact h
  · exact lookupFS_eraseFS_none h

lemma removeOne_some_key {fuel : Nat} {fs fs2 : List (List Char × RmTarget)}
    {it : List Char × Nat} {kv : List Char × Nat}
    (h : removeOne fuel fs it = (some kv, fs2)) :
    kv.1 = it.1 ∧ lookupFS fs it.1 ≠ none := by
  unfold removeOne at h
  cases hl : lookupFS fs it.1 with
  | none =>
    rw [hl] at h
    cases h
  | some t =>
    rw [hl] at h
    refine ⟨?_, fun hc => by simp [hl] at hc⟩
    obtain ⟨node, outcome⟩ := t
    cases node with
    | rfile sz =>
      cases outcome with
      | ok =>
        rw [Prod.mk.injEq, Option.some.injEq] at h
        rw [← h.1]
      | permDenied => simp at h
      | otherErr => simp at h
    | rdir cs =>
      cases outcome with
      | ok =>
        rw [Prod.mk.injEq, Option.some.injEq] at h
        rw [← h.1]
      | permDenied => simp at h
      | otherErr => simp at h
    | rother =>
      rw [Prod.mk.injEq, Option.some.injEq] at h
      rw [← h.1]

lemma dictSet_fst_absent {rep : List (List Char × Nat)} {k p : List Char} {v : Nat}
    (hp : p ∉ rep.map Prod.fst) (hpk : p ≠ k) :
    p ∉ (dictSet rep k v).map Prod.fst := by
  unfold dictSet
  split
  · intro hmem
    rw [List.mem_map] at hmem
    obtain ⟨e, he, hfst⟩ := hmem
    rw [List.mem_map] at he
    obtain ⟨e0, he0, rfl⟩ := he
    by_cases h0 : e0.1 = k
    · rw [if_pos h0] at hfst
      exact hpk hfst.symm
    · rw [if_neg h0] at hfst
      exact hp (List.mem_map.mpr ⟨e0, he0, hfst⟩)
  · intro hmem
    rw [List.map_append, List.mem_append] at hmem
    rcases hmem with h | h
    · exact hp h
    · simp only [List.map_cons, List.map_nil, List.mem_singleton] at h
      exact hpk h

lemma removeGo_append (fuel : Nat) (l1 : List (List Char × Nat)) :
    ∀ (fs : List (List Char × RmTarget)) (rep l2 : List (List Char × Nat)),
      removeGo fuel fs rep (l1 ++ l2) =
        removeGo fuel (removeGo fuel fs rep l1).2 (removeGo fuel fs rep l1).1 l2 := by
  induction l1 with
  | nil => intro fs rep l2; rfl
  | cons it rest ih =>
    intro fs rep l2
    rw [List.cons_append]
    simp only [removeGo]
    cases h : removeOne fuel fs it with
    | mk o fs2 =>
      cases o with
      | some kv => exact ih fs2 (dictSet rep kv.1 kv.2) l2
      | none => exact ih fs2 rep l2

lemma removeGo_absent_path (fuel : Nat) :
    ∀ (items : List (List Char × Nat)) (fs : List (List Char × RmTarget))
      (rep : List (List Char × Nat)) (p : List Char),
      lookupFS fs p = none → p ∉ rep.map Prod.fst →
      p ∉ ((removeGo fuel fs rep items).1).map Prod.fst := by
  intro items
  induction items with
  | nil =>
    intro fs rep p h1 h2
    exact h2
  | cons it rest ih =>
    intro fs rep p h1 h2
    rw [removeGo]
    cases ho : removeOne fuel fs it with
    | mk o fs2 =>
      have hfs2 : lookupFS fs2 p = none := by
        have hpres := @lookupFS_none_preserved fuel fs it p h1
        rw [ho] at hpres
        exact hpres
      cases o with
      | none => exact ih fs2 rep p hfs2 h2
      | some kv =>
        obtain ⟨hk1, hk2⟩ := removeOne_some_key ho
        have hne : p ≠ kv.1 := by
          intro hpe
          rw [hk1] at hpe
          rw [hpe] at h1
          exact hk2 h1
        exact ih fs2 (dictSet rep kv.1 kv.2) p hfs2 (dictSet_fst_absent h2 hne)

lemma lookupFS_none_removeOne {fuel : Nat} {fs : List (List Char × RmTarget)}
    {p : List Char} {ex : Nat} (h : lookupFS fs p = none) :
    removeOne fuel fs (p, ex) = (none, fs) := by
  unfold removeOne
  have h2 : lookupFS fs (p, ex).1 = none := h
  rw [h2]

lemma removeOne_failure {fuel : Nat} {fs : List (List Char × RmTarget)}
    {p : List Char} {ex : Nat} {t : RmTarget} (hl : lookupFS fs p = some t)
    (ho : t.outcome ≠ RmOutcome.ok) (hn : t.node ≠ RNode.rother) :
    removeOne fuel fs (p, ex) = (none, fs) := by
  unfold removeOne
  have hl2 : lookupFS fs (p, ex).1 = some t := hl
  rw [hl2]
  obtain ⟨node, outcome⟩ := t
  cases node with
  | rfile sz =>
    cases outcome with
    | ok => exact absurd rfl ho
    | permDenied => rfl
    | otherErr => rfl
  | rdir cs =>
    cases outcome with
    | ok => exact absurd rfl ho
    | permDenied => rfl
    | otherErr => rfl
  | rother => exact absurd rfl hn

/-- C5: the removal loop attempts every item exactly once, in input order,
independent of the outcomes of earlier items: running a batch splits as
running its first part and continuing on the second from the resulting state
and report (so no item outcome can abort the batch); and an item whose
removal call fails (permission denied or any other error, the target being a
file or directory) records nothing in the report for that path and the loop
continues identically with the remaining items. -/
theorem remove_batch_isolation :
    (∀ (fuel : Nat) (fs : List (List Char × RmTarget))
        (rep l1 l2 : List (List Char × Nat)),
        removeGo fuel fs rep (l1 ++ l2) =
          removeGo fuel (removeGo fuel fs rep l1).2 (removeGo fuel fs rep l1).1 l2)
    ∧ (∀ (fuel : Nat) (fs : List (List Char × RmTarget))
        (rep : List (List Char × Nat)) (p : List Char) (ex : Nat)
        (rest : List (List Char × Nat)) (t : RmTarget),
        lookupFS fs p = some t → t.outcome ≠ RmOutcome.ok →
        t.node ≠ RNode.rother →
        removeGo fuel fs rep ((p, ex) :: rest) = removeGo fuel fs rep rest) := by
  refine ⟨fun fuel fs rep l1 l2 => removeGo_append fuel l1 fs rep l2,
    fun fuel fs rep p ex rest t hl ho hn => ?_⟩
  rw [removeGo, removeOne_failure hl ho hn]

/-- Witness for C5: a permission-denied item in front of a batch leaves the
loop result identical to the batch without it. -/
theorem remove_batch_isolation_witness :
    removeGo 3 [("perm".data, ⟨RNode.rfile 2, RmOutcome.permDenied⟩)] []
        [("perm".data, 2), ("m".data, 1)] =
      removeGo 3 [("perm".data, ⟨RNode.rfile 2, RmOutcome.permDenied⟩)] []
        [("m".data, 1)] :=
  remove_batch_isolation.2 3 [("perm".data, ⟨RNode.rfile 2, RmOutcome.permDenied⟩)]
    [] "perm".data 2 [("m".data, 1)] ⟨RNode.rfile 2, RmOutcome.permDenied⟩
    rfl (fun h => nomatch h) (fun h => nomatch h)

/-- C4 amended: a missing path is skipped with nothing recorded and never
appears in the report of a whole batch; a failed removal of a file or
directory records nothing; a successful removal of a file records the
current stat size, and of a directory the re-walked recursive size, in both
cases ignoring the scan-time size and deleting the path.  A target that is
neither a file nor a directory (fifo, socket, ...) falls outside this: see
the counterexample. -/
theorem remove_report_sound :
    (∀ (fuel : Nat) (fs : List (List Char × RmTarget)) (p : List Char) (ex : Nat),
        lookupFS fs p = none → removeOne fuel fs (p, ex) = (none, fs))
    ∧ (∀ (fuel : Nat) (fs : List (List Char × RmTarget))
        (items : List (List Char × Nat)) (p : List Char),
        lookupFS fs p = none →
        p ∉ ((safe_remove_items fuel fs items).1).map Prod.fst)
    ∧ (∀ (fuel : Nat) (fs : List (List Char × RmTarget)) (p : List Char) (ex : Nat)
        (t : RmTarget),
        lookupFS fs p = some t → t.outcome ≠ RmOutcome.ok →
        t.node ≠ RNode.rother → removeOne fuel fs (p, ex) = (none, fs))
    ∧ (∀ (fuel : Nat) (fs : List (List Char × RmTarget)) (p : List Char)
        (ex sz : Nat),
        lookupFS fs p = some ⟨RNode.rfile sz, RmOutcome.ok⟩ →
        removeOne fuel fs (p, ex) = (some (p, sz), eraseFS fs p)
          ∧ lookupFS (eraseFS fs p) p = none)
    ∧ (∀ (fuel : Nat) (fs : List (List Char × RmTarget)) (p : List Char) (ex : Nat)
        (cs : List (List Char × FSNode)),
        lookupFS fs p = some ⟨RNode.rdir cs, RmOutcome.ok⟩ →
        removeOne fuel fs (p, ex) = (some (p, recSizeF fuel cs), eraseFS fs p)
          ∧ lookupFS (eraseFS fs p) p = none) := by
  refine ⟨fun fuel fs p ex h => lookupFS_none_removeOne h,
    fun fuel fs items p h => removeGo_absent_path fuel items fs [] p h (by simp),
    fun fuel fs p ex t hl ho hn => removeOne_failure hl ho hn,
    fun fuel fs p ex sz hl => ⟨?_, lookupFS_eraseFS fs p⟩,
    fun fuel fs p ex cs hl => ⟨?_, lookupFS_eraseFS fs p⟩⟩
  · unfold removeOne
    have hl2 : lookupFS fs (p, ex).1 = some ⟨RNode.rfile sz, RmOutcome.ok⟩ := hl
    rw [hl2]
  · unfold removeOne
    have hl2 : lookupFS fs (p, ex).1 = some ⟨RNode.rdir cs, RmOutcome.ok⟩ := hl
    rw [hl2]

/-- Witness for C4: removing an existing 4-byte file records the stat size 4
(the scan-time size 9 is ignored) and deletes the binding. -/
theorem remove_report_sound_witness :
    removeOne 3 [("q".data, ⟨RNode.rfile 4, RmOutcome.ok⟩)] ("q".data, 9) =
      (some ("q".data, 4),
        eraseFS [("q".data, ⟨RNode.rfile 4, RmOutcome.ok⟩)] "q".data) :=
  (remove_report_sound.2.2.2.1 3 [("q".data, ⟨RNode.rfile 4, RmOutcome.ok⟩)]
    "q".data 9 4 rfl).1

/-- C4 counterexample: a path that exists but is neither a regular file nor
a directory (a fifo, socket, ...) falls through both removal branches: it is
recorded in the report with size 0 even though nothing was deleted — the
target still exists afterwards — refuting the claim that every recorded path
was actually deleted. -/
theorem remove_report_special_node_false :
    safe_remove_items 3 [("p".data, ⟨RNode.rother, RmOutcome.ok⟩)] [("p".data, 7)] =
      ([("p".data, 0)], [("p".data, ⟨RNode.rother, RmOutcome.ok⟩)])
    ∧ (lookupFS [("p".data, ⟨RNode.rother, RmOutcome.ok⟩)] "p".data).isSome = true := by
  exact ⟨rfl, rfl⟩
